import Mathlib

/-!
Shallow embedding of the GPJax reduction algebra (`src/gpjax/rkhs/reduce/repetitions.py`)
and the RKHS-vector algebra (`src/gpjax/rkhs/vector.py`).

Matrices (jax 2-D arrays) are lists of rows of rationals; jax arrays are rectangular by
construction, which the embedding notes wherever it relies on it.  Exact rational
arithmetic stands in for floating point ("within floating-point tolerance" becomes exact
equality over `ℚ`).  Operations that raise Python exceptions return `none`.

The module `gpjax/rkhs/reduce/base.py` (defining `AbstractReduce`, `Identity`,
`NoReduce`, `Sum`, `Mean`, `LinearReduce` and `ChainedReduce`) is imported by the source
under analysis but is not part of the repository snapshot; those reductions are modelled
from the specification, and each such definition is marked `Modelled from the spec:`.
-/

namespace GPJax

/-- A 2-D jax array: a list of rows of rationals. -/
abbrev Mat := List (List ℚ)

/-- Column count `M.shape[1]`.  Jax arrays are rectangular, so the first row's length is
the shared width. -/
def colsOf (M : Mat) : ℕ := (M.headD []).length

/-- Entry `M[i, j]`.  Out-of-range reads return the junk value `0`; the source code only
reads in-range entries on the inputs the claims quantify over. -/
def entry (M : Mat) (i j : ℕ) : ℚ := (M.getD i []).getD j 0

/-- Rectangularity: every row has the common width.  True of every jax array. -/
def Rect (M : Mat) : Prop := ∀ row ∈ M, row.length = colsOf M

/-- The identity matrix `np.eye n`. -/
def eye (n : ℕ) : Mat :=
  (List.range n).map (fun i => (List.range n).map (fun j => if i = j then 1 else 0))

/-- Matrix product `A @ B` (`jnp.matmul` on 2-D operands): row `i`, column `j` is
`Σ_k A[i,k] * B[k,j]`. -/
def matMul (A B : Mat) : Mat :=
  A.map (fun ar =>
    (List.range (colsOf B)).map (fun j =>
      ((List.range ar.length).map (fun i => ar.getD i 0 * entry B i j)).sum))

/-- Matrix transpose `.T`. -/
def transposeM (M : Mat) : Mat :=
  (List.range (colsOf M)).map (fun j => M.map (fun row => row.getD j 0))

/-- Embeds `tile_view` (repetitions.py lines 34-53).  For a rectangular input,
`np.broadcast_to(inp.ravel(), (reps, inp.size)).reshape((reps * rows, cols))` stacks
`reps` full copies of the input back-to-back, exactly as the source docstring's example
shows. -/
def tile_view (inp : Mat) (reps : ℕ) : Mat :=
  (List.replicate reps inp).flatten

/-- One output row of `SparseReduce.__matmul__` (repetitions.py lines 233-246): for one
row `row` of one index block, gather the referenced input rows and sum (or average) them
entrywise.  Index blocks of a jax `SparseReduce` are rectangular, so a row's own length
is the block's `shape[1]`; a zero-width row yields the corresponding all-zero output row
of the `shape[1] == 0` branch (line 236-237), because an empty sum is `0`. -/
def sparseRow (average : Bool) (M : Mat) (row : List ℕ) : List ℚ :=
  (List.range (colsOf M)).map (fun j =>
    let s := (row.map (fun i => entry M i j)).sum
    if average then s / (row.length : ℚ) else s)

/-- One row of `SparseReduce.linmap` (repetitions.py lines 262-300): the `.at[...].set`
update writes the weight `1/shape[1]` (averaging) or `1` (summing) at every input column
referenced by this output row's group.  `.set` is idempotent, so a duplicated index still
holds the single weight (set, not add). -/
def sparseLinRow (average : Bool) (n_in : ℕ) (row : List ℕ) : List ℚ :=
  (List.range n_in).map (fun c =>
    if c ∈ row then (if average then 1 / (row.length : ℚ) else 1) else 0)

/-- The reduction family.  `identity`, `noReduce`, `sumR`, `meanR`, `linearR` and
`chained` come from the absent `reduce/base.py` and are modelled from the spec (§2, §3,
§4.1); `repeatR`, `tileView` and `sparse` embed the classes of repetitions.py. -/
inductive Reduce where
  | identity : Reduce
  | noReduce : Reduce
  | repeatR (times : ℕ) : Reduce
  | tileView (result_len : ℕ) : Reduce
  | sparse (idcs : List (List (List ℕ))) (average : Bool) (max_idx : ℕ) : Reduce
  | linearR (A : Mat) : Reduce
  | chained (rs : List Reduce) : Reduce
  | sumR : Reduce
  | meanR : Reduce

/-- Column-wise sum `np.sum(M, 0)` keeping a leading axis of length 1.  Modelled from
the spec: the `Sum` reduction of the absent base.py folds all rows into one (§4.3). -/
def colSum (M : Mat) : List ℚ :=
  (List.range (colsOf M)).map (fun j => (M.map (fun row => row.getD j 0)).sum)

/-- Column-wise mean `np.mean(M, 0)` keeping a leading axis of length 1.  Modelled from
the spec: the `Mean` reduction of the absent base.py (§4.3). -/
def colMean (M : Mat) : List ℚ :=
  (List.range (colsOf M)).map (fun j => (M.map (fun row => row.getD j 0)).sum / (M.length : ℚ))

mutual

/-- Application of a reduction to a matrix: the array branch of each `__matmul__`.
`repeatR` is `np.repeat(inp, times, 0)` (line 83): each row repeated `times` times in
place.  `tileView` checks divisibility then tiles (lines 135-141).  `sparse` checks
`max_idx + 1 ≤ len(inp)` then concatenates the per-block reductions (lines 225-246); the
2-D check of line 229 always passes since `Mat` is 2-D by construction.  `identity`,
`noReduce`, `linearR`, `chained`, `sumR` and `meanR` are modelled from the spec (§4.1,
§4.3): `linearR` is literal left multiplication (shape-checked as jnp.matmul does),
`chained` applies its members last-to-first, `sumR`/`meanR` fold all rows into one. -/
def Reduce.applyM : Reduce → Mat → Option Mat
  | .identity, M => some M
  | .noReduce, M => some M
  | .repeatR t, M => some (M.flatMap (List.replicate t))
  | .tileView rl, M =>
    if rl % M.length = 0 then some (tile_view M (rl / M.length)) else none
  | .sparse idcs avg mi, M =>
    if mi + 1 ≤ M.length then
      some (idcs.flatMap (fun b => b.map (sparseRow avg M)))
    else none
  | .linearR A, M => if (A.headD []).length = M.length then some (matMul A M) else none
  | .chained rs, M => applyChain rs M
  | .sumR, M => some [colSum M]
  | .meanR, M => some [colMean M]

/-- Modelled from the spec: `ChainedReduce` applies its member reductions to the matrix
in sequence, last-to-first (§3, §4.1); any member's failure propagates. -/
def applyChain : List Reduce → Mat → Option Mat
  | [], M => some M
  | r :: rest, M => (applyChain rest M).bind r.applyM

end

mutual

/-- `new_len`: the output length a reduction reports for input length `n`.
`repeatR.new_len` is `original_len * times` (lines 85-94); `tileView.new_len` is
`result_len` (lines 155-164); `sparse.new_len` asserts `max_idx + 1 ≤ original_len` and
returns `len(self.idcs)` — the number of index blocks (lines 248-260).  The rest are
modelled from the spec: `identity`/`noReduce` keep the length, `linearR` reports its
matrix's row count (§4.1), `sumR`/`meanR` report 1 (§4.3), `chained` composes its
members' lengths last-to-first (§3, §8). -/
def Reduce.new_len : Reduce → ℕ → Option ℕ
  | .identity, n => some n
  | .noReduce, n => some n
  | .repeatR t, n => some (n * t)
  | .tileView rl, _ => some rl
  | .sparse idcs _ mi, n => if mi + 1 ≤ n then some idcs.length else none
  | .linearR A, _ => some A.length
  | .chained rs, n => newLenChain rs n
  | .sumR, _ => some 1
  | .meanR, _ => some 1

/-- Modelled from the spec: the composed output length of a chain, last-to-first. -/
def newLenChain : List Reduce → ℕ → Option ℕ
  | [], n => some n
  | r :: rest, n => (newLenChain rest n).bind r.new_len

end

/-- Application of a reduction to another reduction: the `isinstance(inp, AbstractReduce)`
branch of each `__matmul__`.  `Repeat.__matmul__` (lines 81-82) and `TileView.__matmul__`
(lines 133-134) return `ChainedReduce([self, inp])`; the reductions of the absent base.py
are modelled from the spec's uniform contract (§4.1).  `SparseReduce.__matmul__`
(lines 194-246) has no such branch — its parameter is annotated as a 2-D float array and
its body immediately calls `len(inp)` — so applying a `SparseReduce` to a reduction
raises instead of composing: embedded as `none`. -/
def Reduce.matmulR : Reduce → Reduce → Option Reduce
  | .sparse _ _ _, _ => none
  | r, other => some (.chained [r, other])

/-- `linmap`: the explicit linear-map form, for the linearizable reductions.
`TileView.linmap` (lines 143-153) tiles an identity matrix, with no divisibility check.
`SparseReduce.linmap` (lines 262-300) raises unless the reduced axis of `inp_shape` is
exactly `max_idx + 1`, then builds the 0/weight matrix row by row (blocks in order,
`offset` advancing by each block's row count).  `LinearReduce.linmap` is modelled from
the spec: it returns the stored matrix (§3).  No other reduction of the snapshot exposes
a linear map. -/
def Reduce.linmap : Reduce → ℕ × ℕ → Option Mat
  | .tileView rl, shape => some (tile_view (eye shape.1) (rl / shape.1))
  | .sparse idcs avg mi, shape =>
    if shape.1 = mi + 1 then
      some (idcs.flatMap (fun b => b.map (sparseLinRow avg (mi + 1))))
    else none
  | .linearR A, _ => some A
  | _, _ => none

/-- Stable insertion into an ascending list: the new element goes after every existing
element that does not strictly exceed it. -/
def insertStable {α : Type} (le : α → α → Bool) (a : α) : List α → List α
  | [] => [a]
  | b :: l => if le b a then b :: insertStable le a l else a :: b :: l

/-- Stable ascending sort (insertion sort, inserting in original order).  `np.argsort`
as used by `sum_from_unique` is a stable ascending sort, and the stable ascending sort
is a unique function of the ordering, so this embeds it faithfully. -/
def sortStable {α : Type} (le : α → α → Bool) (l : List α) : List α :=
  l.foldl (fun acc a => insertStable le a acc) []

/-- The ascending indices of the entries of `l` equal to `u`:
`np.argwhere(input == un[i]).flatten()` (repetitions.py line 380). -/
def argIdxs (l : List ℚ) (u : ℚ) : List ℕ :=
  (List.range l.length).filter (fun j => l.getD j 0 = u)

/-- The sorted distinct values of `l`: `np.unique(input)` (line 379). -/
def uniqueVals (l : List ℚ) : List ℚ :=
  sortStable (fun a b => a ≤ b) l.dedup

/-- The per-unique-value data of `sum_from_unique` (lines 379-385), one triple
`(value, count, indices)` per unique value, stably sorted ascending by multiplicity:
`argsort = np.argsort(l_arr)` applied in parallel to `un`, `cts` and `un_idx`. -/
def sortedTriples (l : List ℚ) : List (ℚ × ℕ × List ℕ) :=
  sortStable (fun a b => a.2.1 ≤ b.2.1)
    ((uniqueVals l).map (fun u => (u, l.count u, argIdxs l u)))

/-- Maximal runs of equal key in a list.  `sum_from_unique` (lines 387-398) computes the
boundary array `change` where consecutive sorted multiplicities differ and slices between
boundaries; the result is exactly the maximal runs of equal multiplicity. -/
def splitRuns {α : Type} (key : α → ℕ) : List α → List (List α)
  | [] => []
  | a :: rest =>
    match splitRuns key rest with
    | [] => [[a]]
    | [] :: gs => [a] :: gs
    | (b :: g) :: gs =>
      if key a = key b then (a :: b :: g) :: gs else [a] :: (b :: g) :: gs

/-- `SparseReduce.__post_init__` (lines 180-188): a missing `max_idx` is inferred as the
largest index referenced by any nonempty block; when no block references anything the
inference fails (`np.max` of an empty collection raises). -/
def inferMaxIdx (idcs : List (List (List ℕ))) : Option ℕ :=
  (idcs.flatMap List.flatten).max?

/-- Constructing a `SparseReduce` with `max_idx=None`: infer it or fail. -/
def mkSparse (idcs : List (List (List ℕ))) (average : Bool) : Option Reduce :=
  (inferMaxIdx idcs).map (fun mi => .sparse idcs average mi)

/-- `SparseReduce.sum_from_unique` (lines 352-401): the unique values, their counts and
index lists; a stable ascending sort by multiplicity; one index block per run of equal
multiplicity; and the `SparseReduce` built from those blocks with inferred `max_idx`.
Returns the multiplicity-sorted unique values, their counts, and the reduction. -/
def sum_from_unique (input : List ℚ) (mean : Bool) :
    Option (List ℚ × List ℕ × Reduce) :=
  let sorted := sortedTriples input
  let el := (splitRuns (fun t => t.2.1) sorted).map (fun g => g.map (fun t => t.2.2))
  (mkSparse el mean).map (fun sr => (sorted.map (·.1), sorted.map (·.2.1), sr))

/-- Reshaping a 1-D array into a column: `input.reshape((len(input), 1))`. -/
def colVec (l : List ℚ) : Mat := l.map (fun x => [x])

/-- The kernel collaborator (§6): an indexed family of kernels over rational inspection
points — `kEval kid x y` is the scalar cross-covariance of points `x` and `y`, and
kernels are equal exactly when their indices are.  Index 0 is the linear kernel
`k(x, y) = x * y`; distinct indices give distinct kernels. -/
def kEval (kid : ℕ) (x y : ℚ) : ℚ := x * y + (kid : ℚ)

/-- `kernel.cross_covariance(pointsA, pointsB)`: the Gram matrix with `len(pointsA)`
rows and `len(pointsB)` columns (§6). -/
def crossCov (kid : ℕ) (X Y : List ℚ) : Mat :=
  X.map (fun x => Y.map (fun y => kEval kid x y))

/-- `RkhsVec` (vector.py lines 26-132): raw inspection points, a kernel, a pending
reduction (default identity) and an orientation flag (column when `transpose` is
false). -/
structure RkhsVec where
  insp_pts : List ℚ
  kid : ℕ
  reduce : Reduce
  transpose : Bool

/-- `RkhsVec.size` (lines 58-60): `reduce.final_len(len(insp_pts))`.  `final_len` lives
in the absent base.py; modelled from the spec as the reduction's output length for the
inspection-point count (§3). -/
def vSize (v : RkhsVec) : Option ℕ := v.reduce.new_len v.insp_pts.length

/-- `RkhsVec.__len__` (lines 62-66): 1 for a row vector, `size` for a column vector. -/
def vLen (v : RkhsVec) : Option ℕ := if v.transpose then some 1 else vSize v

/-- `RkhsVec.T` (lines 33-40): same fields, flipped orientation. -/
def transposeV (v : RkhsVec) : RkhsVec := ⟨v.insp_pts, v.kid, v.reduce, !v.transpose⟩

/-- `RkhsVec.__pairwise_dot__` (lines 68-85): raises unless the kernels are equal, else
computes the raw Gram matrix and applies each side's pending reduction to its axis:
`self.reduce @ (other.reduce @ raw_gram.T).T`. -/
def pairwise_dot (a b : RkhsVec) : Option Mat :=
  if a.kid = b.kid then
    let raw_gram := crossCov a.kid a.insp_pts b.insp_pts
    (b.reduce.applyM (transposeM raw_gram)).bind (fun t1 =>
      a.reduce.applyM (transposeM t1))
  else none

/-- The element-wise combination operator of a `CombinationVec`: `jnp.add` or
`jnp.multiply` (vector.py lines 159-160). -/
inductive CombOp where
  | add : CombOp
  | mul : CombOp

/-- `CombinationVec` (vector.py lines 135-156): member vectors, the combination
operator, a reduction (default `NoReduce`), and the length cached by `__post_init__`
(`self.__len = self.reduce.new_len(orig_len)`, line 148). -/
structure CombinationVec where
  rkhs_vecs : List RkhsVec
  op : CombOp
  reduce : Reduce
  transpose : Bool
  lenCache : ℕ

/-- `CombinationVec.insp_pts` (lines 150-152): the concatenation of the members'
inspection points. -/
def cInspPts (C : CombinationVec) : List ℚ :=
  C.rkhs_vecs.flatMap (·.insp_pts)

/-- The kernel of a combination: the members share it (spec §3 invariant). -/
def cKid (C : CombinationVec) : ℕ :=
  (C.rkhs_vecs.headD ⟨[], 0, .identity, false⟩).kid

/-- `CombinationVec.__post_init__` (lines 141-148): `orig_len = len(rkhs_vecs[0])`
(raises on an empty member list), every member's `len()` must equal it, then the length
cache is set to `self.reduce.new_len(orig_len)` (whose own assertion may raise). -/
def mkCombinationVec (vecs : List RkhsVec) (op : CombOp) (red : Reduce) :
    Option CombinationVec :=
  match vecs with
  | [] => none
  | v0 :: rest =>
    (vLen v0).bind (fun n =>
      if (v0 :: rest).all (fun v => vLen v = some n) then
        (red.new_len n).map (fun L => ⟨v0 :: rest, op, red, false, L⟩)
      else none)

/-- `RkhsVec.__mul__` (lines 131-132): `ProductVec([self, other])`, i.e. a
`CombinationVec` with the multiply operator and the default `NoReduce` reduction. -/
def mulV (a b : RkhsVec) : Option CombinationVec :=
  mkCombinationVec [a, b] .mul .noReduce

/-- `.sum()` on a combination (vector.py lines 94-97 via 120-124): `red.Sum() @ self`
dispatches to `RkhsVec.__rmatmul__`, which builds a plain
`RkhsVec(self.insp_pts, self.k, Sum() @ self.reduce, self.transpose)` — the member list
and the combination operator are not carried over; `Sum() @ reduce` is
`ChainedReduce([Sum, reduce])` (spec §4.1, base.py absent). -/
def combSum (C : CombinationVec) : RkhsVec :=
  ⟨cInspPts C, cKid C, .chained [.sumR, C.reduce], C.transpose⟩

/-- `RkhsVec.__matmul__` (lines 104-118): raises when both operands have the same
orientation; row @ column dispatches to `__pairwise_dot__`; column @ row dispatches to
`__tensor_prod__` (lines 87-92), which raises unless the sizes agree and then builds
`ProductVec([self, other], red.Sum())`. -/
def matmulV (a b : RkhsVec) : Option (Mat ⊕ CombinationVec) :=
  if a.transpose = b.transpose then none
  else if a.transpose then (pairwise_dot a b).map Sum.inl
  else
    match vSize a, vSize b with
    | some sa, some sb =>
      if sa = sb then (mkCombinationVec [a, b] .mul .sumR).map Sum.inr else none
    | _, _ => none

/-- Modelled from the spec: the intended denotation of `(v1 * v2).sum()` — the sum of
tensor products `Σ_i φ(x_i) ⊗ φ(y_i)` (§4.3 tensor product, §8) — evaluated at a probe
pair `(c, d)` by the reproducing property of the product RKHS:
`⟨φ(x) ⊗ φ(y), φ(c) ⊗ φ(d)⟩ = k(x, c) * k(y, d)`.  The numeric evaluation path for
combination vectors is absent from the snapshot (the `operator` field is never read). -/
def tensorSumEval (v1 v2 : RkhsVec) (c d : ℚ) : ℚ :=
  ((v1.insp_pts.zip v2.insp_pts).map (fun p => kEval v1.kid p.1 c * kEval v2.kid p.2 d)).sum

/-- Modelled from the spec: the scalar value of the tensor-product-then-sum element,
`⟨Σ_i φ(x_i) ⊗ φ(y_i)⟩ = Σ_i k(x_i, y_i)` — the quantity §8 equates with `v1.T @ v2`. -/
def tensorSumScalar (v1 v2 : RkhsVec) : ℚ :=
  ((v1.insp_pts.zip v2.insp_pts).map (fun p => kEval v1.kid p.1 p.2)).sum

/-- Well-formedness of a sparse reduction's index data: each group row references
distinct input rows, all bounded by `max_idx` (the §3 data invariant: `max_idx` is the
largest referenced input index).  Trivially true for the other reductions. -/
def SparseOK : Reduce → Prop
  | .sparse idcs _ mi => ∀ b ∈ idcs, ∀ row ∈ b, row.Nodup ∧ ∀ x ∈ row, x ≤ mi
  | _ => True

/-! ### Helper lemmas -/

theorem sum_map_range (f : ℕ → ℚ) (n : ℕ) :
    ((List.range n).map f).sum = ∑ i ∈ Finset.range n, f i := by
  induction n with
  | zero => simp
  | succ m ih =>
    rw [List.range_succ, Finset.sum_range_succ, List.map_append, List.sum_append, ih]
    simp

theorem getD_map_range (g : ℕ → ℚ) {i n : ℕ} (h : i < n) :
    ((List.range n).map g).getD i 0 = g i := by
  rw [List.getD_eq_getElem?_getD, List.getElem?_map, List.getElem?_range h]
  rfl

/-- A list is the range-indexed map of its own entries. -/
theorem self_eq_map_range {α : Type} (d : α) (row : List α) :
    (List.range row.length).map (fun j => row.getD j d) = row := by
  induction row with
  | nil => rfl
  | cons x xs ih =>
    rw [List.length_cons, List.range_succ_eq_map, List.map_cons, List.map_map]
    simp only [List.getD_cons_zero, List.cons.injEq, true_and]
    calc (List.range xs.length).map ((fun j => (x :: xs).getD j d) ∘ Nat.succ)
        = (List.range xs.length).map (fun j => xs.getD j d) := by
          apply List.map_congr_left; intro a _; rfl
      _ = xs := ih

/-- Sum over `range n` of a function vanishing off a nodup index list, as a sum over the
list. -/
theorem sum_range_ite_mem (row : List ℕ) (n : ℕ) (hnd : row.Nodup)
    (hb : ∀ x ∈ row, x < n) (f : ℕ → ℚ) :
    ((List.range n).map (fun k => if k ∈ row then f k else 0)).sum = (row.map f).sum := by
  rw [sum_map_range, ← Finset.sum_filter, ← List.sum_toFinset f hnd]
  congr 1
  ext k
  simp only [Finset.mem_filter, Finset.mem_range, List.mem_toFinset]
  exact ⟨fun h => h.2, fun h => ⟨hb k h, h⟩⟩

theorem sum_map_const_mem (t : List ℕ) (g : ℕ → ℚ) (c : ℚ) (h : ∀ x ∈ t, g x = c) :
    (t.map g).sum = t.length • c := by
  induction t with
  | nil => simp
  | cons x xs ih =>
    rw [List.map_cons, List.sum_cons, ih (fun y hy => h y (List.mem_cons_of_mem x hy)),
      h x (List.mem_cons_self x xs), List.length_cons, succ_nsmul, add_comm]

theorem flatMap_replicate_length (t : ℕ) (M : Mat) :
    (M.flatMap (List.replicate t)).length = M.length * t := by
  induction M with
  | nil => simp
  | cons r rest ih => simp [List.flatMap_cons, ih]; ring

theorem flatMap_replicate_getD (t : ℕ) (M : Mat) (i : ℕ) (hi : i < M.length * t) :
    (M.flatMap (List.replicate t)).getD i [] = M.getD (i / t) [] := by
  rcases Nat.eq_zero_or_pos t with rfl | ht
  · simp at hi
  induction M generalizing i with
  | nil => simp at hi
  | cons r rest ih =>
    rw [List.length_cons, Nat.succ_mul] at hi
    rw [List.flatMap_cons]
    by_cases hit : i < t
    · rw [List.getD_append _ _ _ _ (by simpa using hit),
        List.getD_eq_getElem _ _ (by simpa using hit), List.getElem_replicate,
        Nat.div_eq_of_lt hit, List.getD_cons_zero]
    · push_neg at hit
      obtain ⟨j, rfl⟩ : ∃ j, i = j + t := ⟨i - t, by omega⟩
      rw [List.getD_append_right _ _ _ _ (by simp), List.length_replicate,
        Nat.add_sub_cancel, Nat.add_div_right _ ht, ih j (by omega), List.getD_cons_succ]

theorem flatten_replicate_length (k : ℕ) (M : Mat) :
    ((List.replicate k M).flatten).length = k * M.length := by
  rw [List.length_flatten, List.map_replicate, List.sum_replicate, smul_eq_mul]

theorem flatten_replicate_getD (k : ℕ) (M : Mat) (i : ℕ) (hi : i < k * M.length) :
    ((List.replicate k M).flatten).getD i [] = M.getD (i % M.length) [] := by
  induction k generalizing i with
  | zero => simp at hi
  | succ m ih =>
    rw [Nat.succ_mul, Nat.add_comm] at hi
    rw [List.replicate_succ, List.flatten_cons]
    by_cases hin : i < M.length
    · rw [List.getD_append _ _ _ _ hin, Nat.mod_eq_of_lt hin]
    · push_neg at hin
      obtain ⟨j, rfl⟩ : ∃ j, i = M.length + j := ⟨i - M.length, by omega⟩
      rw [List.getD_append_right _ _ _ _ (by omega), Nat.add_sub_cancel_left,
        Nat.add_mod_left, ih j (by omega)]

/-! ### C1 -/

/-- C1: the row-count contract `new_len(n) = rows(apply(M))` fails for `SparseReduce`:
applying `SparseReduce([[[0,1],[0,2]]], average=True)` (one block of two index rows) to
a 3-row matrix produces 2 rows, while `new_len(3)` reports `len(idcs) = 1`, the number
of blocks.  The other reductions of the family satisfy the contract; `new_len` here
contradicts the source's own `__matmul__` docstring examples and the `n_out` computation
inside `SparseReduce.linmap`. -/
theorem c1_sparse_new_len_mismatch :
    (Reduce.applyM (.sparse [[[0, 1], [0, 2]]] true 2) [[1, 2, 3], [4, 5, 6], [7, 8, 9]]).map
        List.length = some 2
    ∧ Reduce.new_len (.sparse [[[0, 1], [0, 2]]] true 2) 3 = some 1
    ∧ (2 : ℕ) ≠ 1 :=
  ⟨rfl, rfl, by decide⟩

/-! ### C5 -/

/-- C5: applying a reduction to another reduction yields a `ChainedReduce` for `Repeat`
and `TileView` (and the spec-modelled base reductions), but not for `SparseReduce`:
`SparseReduce.__matmul__` accepts only 2-D arrays and immediately calls `len(inp)`, so
`SparseReduce([[[0]]], True) @ Identity()` raises instead of composing. -/
theorem c5_sparse_compose_missing :
    Reduce.matmulR (.sparse [[[0]]] true 0) .identity = none
    ∧ Reduce.matmulR (.repeatR 2) .identity = some (.chained [.repeatR 2, .identity])
    ∧ Reduce.matmulR (.tileView 2) .identity = some (.chained [.tileView 2, .identity]) :=
  ⟨rfl, rfl, rfl⟩

/-! ### C9 -/

/-- C9: the matrix-product operator between two RKHS vectors errors whenever both
operands have the same orientation, and the inner product (row @ column) errors whenever
the kernels differ; in each error case nothing is returned. -/
theorem c9_orientation_and_kernel_errors (a b : RkhsVec) :
    (a.transpose = b.transpose → matmulV a b = none)
    ∧ (a.transpose = true → b.transpose = false → a.kid ≠ b.kid → matmulV a b = none) := by
  constructor
  · intro h
    simp [matmulV, h]
  · intro ha hb hk
    simp [matmulV, ha, hb, pairwise_dot, hk]

/-- Witness for C9 at concrete inputs: two column vectors (same orientation), and a row
against a column with different kernels. -/
theorem c9_witness :
    matmulV ⟨[1], 0, .identity, false⟩ ⟨[2], 0, .identity, false⟩ = none
    ∧ matmulV ⟨[1], 0, .identity, true⟩ ⟨[2], 1, .identity, false⟩ = none :=
  ⟨(c9_orientation_and_kernel_errors _ _).1 rfl,
   (c9_orientation_and_kernel_errors _ _).2 rfl rfl (by decide)⟩

/-! ### C10 -/

/-- C10: `SparseReduce.linmap` accepts an input shape exactly when the reduced axis is
`max_idx + 1`, while `SparseReduce.__matmul__` accepts any matrix with at least
`max_idx + 1` rows; in particular a matrix with `max_idx + 2` rows is accepted by apply
and rejected by linmap, so linmap's precondition is strictly stronger. -/
theorem c10_linmap_stricter_than_apply (idcs : List (List (List ℕ))) (avg : Bool)
    (mi : ℕ) (shape : ℕ × ℕ) (M : Mat) :
    ((Reduce.linmap (.sparse idcs avg mi) shape).isSome ↔ shape.1 = mi + 1)
    ∧ ((Reduce.applyM (.sparse idcs avg mi) M).isSome ↔ mi + 1 ≤ M.length)
    ∧ (Reduce.applyM (.sparse idcs avg mi)
        (List.replicate (mi + 2) (List.replicate shape.2 0))).isSome
    ∧ (Reduce.linmap (.sparse idcs avg mi) (mi + 2, shape.2)).isSome = false := by
  refine ⟨?_, ?_, ?_, ?_⟩
  · by_cases h : shape.1 = mi + 1 <;> simp [Reduce.linmap, h]
  · by_cases h : mi + 1 ≤ M.length <;> simp [Reduce.applyM, h]
  · simp [Reduce.applyM]
  · simp [Reduce.linmap]

/-! ### C3 -/

/-- C3 counterexample: `Repeat(2)` applied to `[[1],[2]]` yields `[[1],[1],[2],[2]]` —
`np.repeat(inp, times, 0)` repeats each row in place — so output row 1 is `[1]`, while
the claim (row `i` equals input row `i mod n`, copies back-to-back) predicts input row
`1 mod 2 = 1`, which is `[2]`. -/
theorem c3_counterexample :
    Reduce.applyM (.repeatR 2) [[1], [2]] = some [[1], [1], [2], [2]]
    ∧ ([[1], [1], [2], [2]] : Mat).getD 1 [] ≠ ([[1], [2]] : Mat).getD (1 % 2) [] := by
  refine ⟨rfl, ?_⟩
  norm_num [List.getD]

/-- C3 amended: for every `times > 1`, `Repeat(times)` applied to a matrix with `n` rows
yields each input row repeated `times` times consecutively (interleaved, not
concatenated copies): the output has `n * times` rows and output row `i` equals input
row `i / times` (integer division), not row `i mod n`. -/
theorem c3_amended (t : ℕ) (M : Mat) (_ht : 2 ≤ t) :
    ∃ out, Reduce.applyM (.repeatR t) M = some out
      ∧ out.length = M.length * t
      ∧ ∀ i < out.length, out.getD i [] = M.getD (i / t) [] := by
  refine ⟨M.flatMap (List.replicate t), rfl, flatMap_replicate_length t M, ?_⟩
  intro i hi
  exact flatMap_replicate_getD t M i (by rwa [flatMap_replicate_length] at hi)

/-- Witness for C3 at `times = 2`, `M = [[1],[2]]`. -/
theorem c3_witness :
    ∃ out, Reduce.applyM (.repeatR 2) ([[1], [2]] : Mat) = some out
      ∧ out.length = ([[1], [2]] : Mat).length * 2
      ∧ ∀ i < out.length, out.getD i [] = ([[1], [2]] : Mat).getD (i / 2) [] :=
  c3_amended 2 [[1], [2]] (by norm_num)

/-! ### C4 -/

/-- C4 counterexample: `TileView(6)` and `Repeat(3)` applied to `[[1,2,3],[4,5,6]]`
produce different matrices — tiling stacks three full copies in order, while `Repeat`
repeats each row three times in place — refuting "produces the same concatenation result
as Repeat with times = result_len / n".  (The first conjunct is also the claim's
concrete expected `TileView(6)` output, which does hold.) -/
theorem c4_counterexample :
    Reduce.applyM (.tileView 6) [[1, 2, 3], [4, 5, 6]]
      = some [[1, 2, 3], [4, 5, 6], [1, 2, 3], [4, 5, 6], [1, 2, 3], [4, 5, 6]]
    ∧ Reduce.applyM (.repeatR 3) [[1, 2, 3], [4, 5, 6]]
      = some [[1, 2, 3], [1, 2, 3], [1, 2, 3], [4, 5, 6], [4, 5, 6], [4, 5, 6]]
    ∧ ([[1, 2, 3], [4, 5, 6], [1, 2, 3], [4, 5, 6], [1, 2, 3], [4, 5, 6]] : Mat)
        ≠ [[1, 2, 3], [1, 2, 3], [1, 2, 3], [4, 5, 6], [4, 5, 6], [4, 5, 6]] := by
  refine ⟨rfl, rfl, ?_⟩
  norm_num

/-- C4 amended: when the input row count exactly divides `result_len`, `TileView`
produces `result_len / n` full copies of the matrix stacked back-to-back (output row `i`
is input row `i mod n` — which differs from `Repeat`'s per-row repetition), and when
`result_len` is not an exact multiple the application fails. -/
theorem c4_amended (M : Mat) (rl : ℕ) :
    (rl % M.length = 0 →
      ∃ out, Reduce.applyM (.tileView rl) M = some out
        ∧ out.length = rl
        ∧ ∀ i < out.length, out.getD i [] = M.getD (i % M.length) [])
    ∧ (rl % M.length ≠ 0 → Reduce.applyM (.tileView rl) M = none) := by
  constructor
  · intro h
    refine ⟨tile_view M (rl / M.length), by simp [Reduce.applyM, h], ?_, ?_⟩
    · rw [tile_view, flatten_replicate_length,
        Nat.div_mul_cancel (Nat.dvd_of_mod_eq_zero h)]
    · intro i hi
      rw [tile_view, flatten_replicate_length] at hi
      exact flatten_replicate_getD _ M i hi
  · intro h
    simp [Reduce.applyM, h]

/-- Witness for C4: the divisible branch at `TileView(6)` on the claim's 2×3 matrix, and
the failing branch at `TileView(5)` on the same matrix. -/
theorem c4_witness :
    (∃ out, Reduce.applyM (.tileView 6) ([[1, 2, 3], [4, 5, 6]] : Mat) = some out
      ∧ out.length = 6
      ∧ ∀ i < out.length,
          out.getD i [] = ([[1, 2, 3], [4, 5, 6]] : Mat).getD
            (i % ([[1, 2, 3], [4, 5, 6]] : Mat).length) [])
    ∧ Reduce.applyM (.tileView 5) ([[1, 2, 3], [4, 5, 6]] : Mat) = none :=
  ⟨(c4_amended [[1, 2, 3], [4, 5, 6]] 6).1 (by norm_num),
   (c4_amended [[1, 2, 3], [4, 5, 6]] 5).2 (by norm_num)⟩

/-! ### C8 -/

/-- C8 counterexample: combining two column vectors of one inspection point each under
the default `NoReduce` gives a `CombinationVec` whose cached length is
`new_len(member_len) = 1`, while the claim's value — the reduction's output length at
the concatenated inspection-point count 2 — is `new_len(2) = 2`. -/
theorem c8_counterexample :
    (mkCombinationVec [⟨[5], 0, .identity, false⟩, ⟨[7], 0, .identity, false⟩]
        .add .noReduce).map (fun C => C.lenCache) = some 1
    ∧ (mkCombinationVec [⟨[5], 0, .identity, false⟩, ⟨[7], 0, .identity, false⟩]
        .add .noReduce).map (fun C => (cInspPts C).length) = some 2
    ∧ Reduce.new_len .noReduce 2 = some 2
    ∧ (1 : ℕ) ≠ 2 :=
  ⟨rfl, rfl, rfl, by decide⟩

/-- C8 amended: construction fails whenever some member's `len()` differs from the first
member's (for row vectors `len()` is 1); on success the inspection points are the
concatenation of the members' inspection points and the cached length (`size`) is the
reduction's output length applied to the *common member length*, not to the concatenated
count. -/
theorem c8_amended (v0 : RkhsVec) (rest : List RkhsVec) (op : CombOp) (red : Reduce) :
    ((∃ v ∈ v0 :: rest, vLen v ≠ vLen v0) → mkCombinationVec (v0 :: rest) op red = none)
    ∧ (∀ C, mkCombinationVec (v0 :: rest) op red = some C →
        C.rkhs_vecs = v0 :: rest
        ∧ cInspPts C = (v0 :: rest).flatMap (fun v => v.insp_pts)
        ∧ ∃ n, vLen v0 = some n ∧ red.new_len n = some C.lenCache) := by
  constructor
  · rintro ⟨v, hv, hne⟩
    simp only [mkCombinationVec]
    cases hvl : vLen v0 with
    | none => rfl
    | some n =>
      rw [Option.some_bind, if_neg]
      intro hall
      rw [List.all_eq_true] at hall
      have hvn := hall v hv
      rw [decide_eq_true_iff] at hvn
      exact hne (hvn.trans hvl.symm)
  · intro C hC
    simp only [mkCombinationVec] at hC
    cases hvl : vLen v0 with
    | none => rw [hvl, Option.none_bind] at hC; exact Option.noConfusion hC
    | some n =>
      rw [hvl, Option.some_bind] at hC
      by_cases hall : (v0 :: rest).all (fun v => decide (vLen v = some n)) = true
      · rw [if_pos hall] at hC
        cases hnl : red.new_len n with
        | none => rw [hnl] at hC; simp at hC
        | some L =>
          rw [hnl] at hC
          simp only [Option.map_some'] at hC
          obtain rfl := Option.some.inj hC
          exact ⟨rfl, rfl, n, rfl, by rw [hnl]⟩
      · rw [if_neg hall] at hC
        simp at hC

/-- Witness for C8: a failing construction (members of lengths 1 and 2) and a succeeding
one (two length-1 members under `NoReduce`, cached length 1). -/
theorem c8_witness :
    mkCombinationVec [⟨[1], 0, .identity, false⟩, ⟨[1, 2], 0, .identity, false⟩]
        .add .noReduce = none
    ∧ ((⟨[⟨[5], 0, .identity, false⟩, ⟨[7], 0, .identity, false⟩], .add, .noReduce,
          false, 1⟩ : CombinationVec).rkhs_vecs
        = [⟨[5], 0, .identity, false⟩, ⟨[7], 0, .identity, false⟩]
      ∧ cInspPts ⟨[⟨[5], 0, .identity, false⟩, ⟨[7], 0, .identity, false⟩], .add,
          .noReduce, false, 1⟩
        = ([⟨[5], 0, .identity, false⟩, ⟨[7], 0, .identity, false⟩] :
            List RkhsVec).flatMap (fun v => v.insp_pts)
      ∧ ∃ n, vLen ⟨[5], 0, .identity, false⟩ = some n
          ∧ Reduce.new_len .noReduce n = some 1) := by
  constructor
  · exact (c8_amended ⟨[1], 0, .identity, false⟩ [⟨[1, 2], 0, .identity, false⟩] .add
      .noReduce).1
      ⟨⟨[1, 2], 0, .identity, false⟩,
        List.mem_cons_of_mem _ (List.mem_cons_self _ _), by decide⟩
  · exact (c8_amended ⟨[5], 0, .identity, false⟩ [⟨[7], 0, .identity, false⟩] .add
      .noReduce).2 _ rfl

/-! ### C7 -/

/-- C7: the identity "(v1 * v2).sum() equals v1.T @ v2 in scalar value" fails on the
code.  With the linear kernel and column vectors `v1` on point 2 and `v2` on point 3:
`v1.T @ v2` is the scalar `k(2,3) = 6`, and the intended tensor-product-then-sum element
(modelled from the spec) has scalar value 6 and evaluates to 6 at the probe pair
`(1, 1)`.  But the code's `(v1 * v2).sum()` goes through `__rmatmul__`, which rebuilds a
plain `RkhsVec` over the concatenated points `[2, 3]` and discards the multiply
operator; evaluating that vector at the probe point 1 (via its own inner product, i.e.
the reproducing property) gives `k(2,1) + k(3,1) = 5 ≠ 6`. -/
theorem c7_sum_discards_product :
    ((mulV ⟨[2], 0, .identity, false⟩ ⟨[3], 0, .identity, false⟩).map
        (fun C => matmulV (transposeV (combSum C)) ⟨[1], 0, .identity, false⟩))
      = some (some (Sum.inl [[5]]))
    ∧ matmulV (transposeV ⟨[2], 0, .identity, false⟩) ⟨[3], 0, .identity, false⟩
      = some (Sum.inl [[6]])
    ∧ (mulV ⟨[2], 0, .identity, false⟩ ⟨[3], 0, .identity, false⟩).map
        (fun C => (combSum C).insp_pts) = some [2, 3]
    ∧ tensorSumScalar ⟨[2], 0, .identity, false⟩ ⟨[3], 0, .identity, false⟩ = 6
    ∧ tensorSumEval ⟨[2], 0, .identity, false⟩ ⟨[3], 0, .identity, false⟩ 1 1 = 6
    ∧ (5 : ℚ) ≠ 6 := by
  refine ⟨?_, ?_, rfl, ?_, ?_, by norm_num⟩
  · norm_num [mulV, mkCombinationVec, vLen, vSize, Reduce.new_len, newLenChain, combSum,
      cInspPts, cKid, matmulV, transposeV, pairwise_dot, crossCov, kEval, transposeM,
      colsOf, Reduce.applyM, applyChain, colSum, List.range_succ, List.range_zero]
  · norm_num [matmulV, transposeV, pairwise_dot, crossCov, kEval, transposeM, colsOf,
      Reduce.applyM, applyChain, List.range_succ, List.range_zero]
  · norm_num [tensorSumScalar, kEval]
  · norm_num [tensorSumEval, kEval]

/-! ### C2 -/

/-- C2 counterexample: `SparseReduce([[[0,0]]], average=False)` (one group referencing
row 0 twice) applied to `[[1]]` gives `[[2]]` (the gather counts the duplicate), while
`linmap((1,1)) @ [[1]]` gives `[[1]]` (`.at[...].set` writes the weight once). -/
theorem c2_counterexample :
    Reduce.applyM (.sparse [[[0, 0]]] false 0) [[1]] = some [[2]]
    ∧ Reduce.linmap (.sparse [[[0, 0]]] false 0) (1, 1) = some [[1]]
    ∧ matMul [[1]] [[1]] = [[1]]
    ∧ ([[2]] : Mat) ≠ [[1]] := by
  refine ⟨?_, rfl, ?_, by norm_num⟩
  · norm_num [Reduce.applyM, sparseRow, entry, colsOf, List.range_succ, List.range_zero]
  · norm_num [matMul, entry, colsOf, List.range_succ, List.range_zero]

/-- The dot product of the `i`-th standard-basis row with the values `g`. -/
theorem basis_dot (n : ℕ) (g : ℕ → ℚ) (i : ℕ) (hi : i < n) :
    ((List.range n).map (fun k =>
        ((List.range n).map (fun s => if i = s then (1 : ℚ) else 0)).getD k 0 * g k)).sum
      = g i := by
  rw [List.map_congr_left (fun k hk => by
    rw [getD_map_range _ (List.mem_range.mp hk)])]
  rw [sum_map_range]
  simp only [ite_mul, one_mul, zero_mul]
  rw [Finset.sum_ite_eq]
  simp [Finset.mem_range.mpr hi]

/-- Left multiplication by the tiled identity reproduces the tiled matrix. -/
theorem matMul_tile_eye (M : Mat) (hrect : Rect M) (k : ℕ) :
    matMul (tile_view (eye M.length) k) M = tile_view M k := by
  unfold matMul tile_view
  rw [List.map_flatten, List.map_replicate]
  congr 2
  unfold eye
  rw [List.map_map]
  conv_rhs => rw [← self_eq_map_range ([] : List ℚ) M]
  apply List.map_congr_left
  intro i hi
  have hiM : i < M.length := List.mem_range.mp hi
  have hrowmem : M.getD i [] ∈ M := by
    rw [List.getD_eq_getElem _ _ hiM]
    exact List.getElem_mem hiM
  have hrowlen : (M.getD i []).length = colsOf M := hrect _ hrowmem
  simp only [Function.comp]
  rw [List.length_map, List.length_range]
  rw [List.map_congr_left (fun j _ => basis_dot M.length (fun s => entry M s j) i hiM)]
  conv_rhs => rw [← self_eq_map_range (0 : ℚ) (M.getD i []), hrowlen]
  rfl

/-- A sparse linmap row times the matrix equals the corresponding gathered reduction
row, provided the group references distinct in-range rows. -/
theorem sparse_row_linmap (M : Mat) (avg : Bool) (row : List ℕ)
    (hnd : row.Nodup) (hb : ∀ x ∈ row, x < M.length) :
    (List.range (colsOf M)).map (fun j =>
      ((List.range (sparseLinRow avg M.length row).length).map
        (fun i => (sparseLinRow avg M.length row).getD i 0 * entry M i j)).sum)
    = sparseRow avg M row := by
  unfold sparseRow
  apply List.map_congr_left
  intro j _
  have hlen : (sparseLinRow avg M.length row).length = M.length := by
    unfold sparseLinRow
    rw [List.length_map, List.length_range]
  rw [hlen]
  set w : ℚ := if avg then 1 / (row.length : ℚ) else 1 with hw
  rw [List.map_congr_left (fun i hi => by
    rw [show (sparseLinRow avg M.length row).getD i 0
        = if i ∈ row then w else 0 from getD_map_range _ (List.mem_range.mp hi)])]
  simp only [ite_mul, zero_mul]
  rw [sum_range_ite_mem row M.length hnd hb (fun i => w * entry M i j),
    List.sum_map_mul_left]
  cases avg with
  | false => rw [hw]; simp
  | true =>
    rw [hw]
    simp only [if_true, reduceIte]
    rw [one_div, div_eq_mul_inv, mul_comm]

/-- C2 amended: for every linearizable reduction — `TileView`, `LinearReduce`, and
`SparseReduce` whose groups reference distinct, in-bound input rows (the §3 data
invariant) — whenever both the application to a rectangular `M` and `linmap(M.shape)`
succeed, the applied result equals the linear map times `M`, exactly over `ℚ`.
(`linmap` succeeding additionally requires, for `SparseReduce`, that `M` have exactly
`max_idx + 1` rows.) -/
theorem c2_amended (r : Reduce) (M out lm : Mat) (hrect : Rect M) (hok : SparseOK r)
    (happly : r.applyM M = some out)
    (hlin : r.linmap (M.length, colsOf M) = some lm) :
    out = matMul lm M := by
  cases r with
  | identity => simp [Reduce.linmap] at hlin
  | noReduce => simp [Reduce.linmap] at hlin
  | repeatR t => simp [Reduce.linmap] at hlin
  | chained rs => simp [Reduce.linmap] at hlin
  | sumR => simp [Reduce.linmap] at hlin
  | meanR => simp [Reduce.linmap] at hlin
  | tileView rl =>
    simp only [Reduce.applyM] at happly
    simp only [Reduce.linmap] at hlin
    by_cases h : rl % M.length = 0
    · rw [if_pos h] at happly
      obtain rfl := Option.some.inj happly
      obtain rfl := Option.some.inj hlin
      exact (matMul_tile_eye M hrect (rl / M.length)).symm
    · rw [if_neg h] at happly
      exact Option.noConfusion happly
  | linearR A =>
    simp only [Reduce.applyM] at happly
    simp only [Reduce.linmap] at hlin
    obtain rfl := Option.some.inj hlin
    by_cases h : (A.headD []).length = M.length
    · rw [if_pos h] at happly
      exact (Option.some.inj happly).symm
    · rw [if_neg h] at happly
      exact Option.noConfusion happly
  | sparse idcs avg mi =>
    simp only [Reduce.applyM] at happly
    simp only [Reduce.linmap] at hlin
    by_cases hsh : M.length = mi + 1
    · rw [if_pos hsh] at hlin
      rw [if_pos (by omega)] at happly
      obtain rfl := Option.some.inj happly
      obtain rfl := Option.some.inj hlin
      unfold matMul
      rw [List.map_flatMap]
      rw [List.flatMap_def, List.flatMap_def]
      congr 1
      apply List.map_congr_left
      intro b hb
      rw [List.map_map]
      apply List.map_congr_left
      intro row hrow
      obtain ⟨hnd, hbound⟩ := hok b hb row hrow
      have := sparse_row_linmap M avg row hnd (fun x hx => by
        have := hbound x hx
        omega)
      rw [← hsh]
      simpa [Function.comp] using this.symm
    · rw [if_neg hsh] at hlin
      exact Option.noConfusion hlin

/-- Witness for C2 at a concrete sparse reduction: `SparseReduce([[[0],[1]]],
average=False)` on the 2×1 matrix `[[1],[3]]`, whose linmap is the 2×2 identity. -/
theorem c2_witness :
    ([[1], [3]] : Mat) = matMul [[1, 0], [0, 1]] [[1], [3]] :=
  c2_amended (.sparse [[[0], [1]]] false 1) [[1], [3]] [[1], [3]] [[1, 0], [0, 1]]
    (by
      intro row hrow
      rcases List.mem_cons.mp hrow with rfl | hrow
      · rfl
      rcases List.mem_cons.mp hrow with rfl | hrow
      · rfl
      exact absurd hrow (List.not_mem_nil _))
    (by
      intro b hb row hrow
      rcases List.mem_cons.mp hb with rfl | hb
      · rcases List.mem_cons.mp hrow with rfl | hrow
        · exact ⟨List.nodup_singleton _, by
            intro x hx
            rcases List.mem_cons.mp hx with rfl | hx
            · omega
            exact absurd hx (List.not_mem_nil _)⟩
        rcases List.mem_cons.mp hrow with rfl | hrow
        · exact ⟨List.nodup_singleton _, by
            intro x hx
            rcases List.mem_cons.mp hx with rfl | hx
            · omega
            exact absurd hx (List.not_mem_nil _)⟩
        exact absurd hrow (List.not_mem_nil _)
      exact absurd hb (List.not_mem_nil _))
    (by norm_num [Reduce.applyM, sparseRow, entry, colsOf, List.range_succ,
      List.range_zero])
    (by norm_num [Reduce.linmap, sparseLinRow, List.range_succ, List.range_zero])

/-! ### C6 -/

theorem mem_insertStable {α : Type} (le : α → α → Bool) (a x : α) (l : List α) :
    x ∈ insertStable le a l ↔ x = a ∨ x ∈ l := by
  induction l with
  | nil => simp [insertStable]
  | cons b t ih =>
    by_cases h : le b a
    · simp only [insertStable, h, if_true, List.mem_cons, ih]
      tauto
    · simp only [insertStable, h, Bool.false_eq_true, if_false, List.mem_cons]

theorem mem_foldl_insertStable {α : Type} (le : α → α → Bool) (l : List α) (x : α) :
    ∀ acc, (x ∈ l.foldl (fun acc a => insertStable le a acc) acc ↔ x ∈ acc ∨ x ∈ l) := by
  induction l with
  | nil => intro acc; simp
  | cons a t ih =>
    intro acc
    rw [List.foldl_cons, ih, mem_insertStable, List.mem_cons]
    tauto

theorem mem_sortStable {α : Type} (le : α → α → Bool) (l : List α) (x : α) :
    x ∈ sortStable le l ↔ x ∈ l := by
  unfold sortStable
  rw [mem_foldl_insertStable]
  simp

theorem flatten_splitRuns {α : Type} (key : α → ℕ) (l : List α) :
    (splitRuns key l).flatten = l := by
  induction l with
  | nil => rfl
  | cons a rest ih =>
    rw [splitRuns]
    cases hs : splitRuns key rest with
    | nil =>
      rw [hs] at ih
      simp only [List.flatten_nil] at ih
      simp [← ih]
    | cons g gs =>
      cases g with
      | nil =>
        rw [hs] at ih
        simp only [List.flatten_cons, List.nil_append] at ih
        simp [List.flatten_cons, ih]
      | cons b gtail =>
        rw [hs] at ih
        by_cases h : key a = key b
        · simp only [h, if_true, reduceIte, List.flatten_cons]
          simp only [List.flatten_cons] at ih
          simp [ih]
        · simp only [h, if_false, reduceIte, List.flatten_cons]
          simp only [List.flatten_cons] at ih
          simp [ih]

theorem argIdxs_cons (x : ℚ) (xs : List ℚ) (u : ℚ) :
    argIdxs (x :: xs) u =
      (if x = u then [0] else []) ++ (argIdxs xs u).map Nat.succ := by
  unfold argIdxs
  rw [List.length_cons, List.range_succ_eq_map, List.filter_cons, List.filter_map]
  have hcomp : ((fun j => decide ((x :: xs).getD j 0 = u)) ∘ Nat.succ)
      = fun j => decide (xs.getD j 0 = u) := by
    funext j
    rfl
  rw [hcomp]
  by_cases h : x = u <;> simp [h]

theorem length_argIdxs (l : List ℚ) (u : ℚ) : (argIdxs l u).length = l.count u := by
  induction l with
  | nil => rfl
  | cons x xs ih =>
    rw [argIdxs_cons, List.length_append, List.length_map, ih, List.count_cons]
    by_cases h : x = u <;> simp [h, Nat.add_comm]

theorem mem_argIdxs (l : List ℚ) (u : ℚ) (j : ℕ) :
    j ∈ argIdxs l u ↔ j < l.length ∧ l.getD j 0 = u := by
  unfold argIdxs
  simp [List.mem_filter, List.mem_range]

theorem nodup_argIdxs (l : List ℚ) (u : ℚ) : (argIdxs l u).Nodup :=
  List.Nodup.filter _ (List.nodup_range _)

theorem colVec_getD (l : List ℚ) (j : ℕ) (hj : j < l.length) :
    (colVec l).getD j [] = [l.getD j 0] := by
  unfold colVec
  rw [List.getD_eq_getElem?_getD, List.getElem?_map, List.getElem?_eq_getElem hj,
    List.getD_eq_getElem _ _ hj]
  rfl

/-- One reduction row built from the indices of a value `u` of `l` produces exactly the
group's mean (which is `u`, all matching entries being equal) or sum (`count * u`). -/
theorem sparseRow_argIdxs (l : List ℚ) (u : ℚ) (hu : u ∈ l) (mean : Bool) :
    sparseRow mean (colVec l) (argIdxs l u)
      = [if mean then u else (l.count u : ℚ) * u] := by
  have hcols : colsOf (colVec l) = 1 := by
    cases l with
    | nil => simp at hu
    | cons x xs => rfl
  have hentry : ∀ j ∈ argIdxs l u, entry (colVec l) j 0 = u := by
    intro j hj
    obtain ⟨hjl, hjv⟩ := (mem_argIdxs l u j).mp hj
    unfold entry
    rw [colVec_getD l j hjl, hjv]
    rfl
  have hsum : ((argIdxs l u).map (fun i => entry (colVec l) i 0)).sum
      = ((l.count u : ℕ) : ℚ) * u := by
    rw [sum_map_const_mem _ _ u hentry, length_argIdxs, nsmul_eq_mul]
  have hcpos : l.count u ≠ 0 := Nat.pos_iff_ne_zero.mp (List.count_pos_iff.mpr hu)
  unfold sparseRow
  rw [hcols]
  rw [show List.range 1 = [0] from rfl, List.map_cons, List.map_nil]
  congr 1
  simp only [hsum, length_argIdxs]
  cases mean with
  | false => simp
  | true =>
    simp only [if_true, reduceIte]
    exact mul_div_cancel_left₀ u (Nat.cast_ne_zero.mpr hcpos)

/-- C6: `sum_from_unique` round-trip.  For every nonempty input and averaging flag, the
construction succeeds and applying the returned `SparseReduce` to the column-reshaped
input yields, aligned with the returned (multiplicity-then-discovery ordered) unique
values and counts, one row per unique value holding the mean of its matching entries
(which is the value itself) or their sum (`count * value`).  Concretely, for
`[1,2,3,1,2,3,1,2,3]` with averaging, the unique values are `[1,2,3]` with counts
`[3,3,3]`, and applying the reduction to the column-reshaped input yields
`[[1],[2],[3]]`. -/
theorem c6_sum_from_unique (input : List ℚ) (mean : Bool) (hne : input ≠ []) :
    (∃ un cts sr out,
      sum_from_unique input mean = some (un, cts, sr)
      ∧ Reduce.applyM sr (colVec input) = some out
      ∧ out = List.zipWith (fun u (c : ℕ) => [if mean then u else (c : ℚ) * u]) un cts
      ∧ un.length = cts.length
      ∧ ∀ u ∈ un, u ∈ input)
    ∧ sum_from_unique [1, 2, 3, 1, 2, 3, 1, 2, 3] true
        = some ([1, 2, 3], [3, 3, 3], .sparse [[[0, 3, 6], [1, 4, 7], [2, 5, 8]]] true 8)
    ∧ Reduce.applyM (.sparse [[[0, 3, 6], [1, 4, 7], [2, 5, 8]]] true 8)
        (colVec [1, 2, 3, 1, 2, 3, 1, 2, 3]) = some [[1], [2], [3]] := by
  refine ⟨?_, rfl, ?_⟩
  · -- general round-trip
    have hmemT : ∀ t ∈ sortedTriples input,
        t.1 ∈ input ∧ t.2.1 = input.count t.1 ∧ t.2.2 = argIdxs input t.1 := by
      intro t ht
      rw [sortedTriples, mem_sortStable] at ht
      obtain ⟨u, hu, rfl⟩ := List.mem_map.mp ht
      rw [uniqueVals, mem_sortStable, List.mem_dedup] at hu
      exact ⟨hu, rfl, rfl⟩
    -- every index referenced by the blocks is an in-range input position
    have hidx : ∀ x ∈ ((splitRuns (fun t => t.2.1) (sortedTriples input)).map
        (fun g => g.map (fun t => t.2.2))).flatMap List.flatten, x < input.length := by
      intro x hx
      rw [List.flatMap_map] at hx
      rw [List.mem_flatMap] at hx
      obtain ⟨g, hg, hx⟩ := hx
      rw [List.mem_flatten] at hx
      obtain ⟨row, hrow, hx⟩ := hx
      obtain ⟨t, ht, rfl⟩ := List.mem_map.mp hrow
      have htmem : t ∈ sortedTriples input := by
        rw [← flatten_splitRuns (fun t => t.2.1) (sortedTriples input), List.mem_flatten]
        exact ⟨g, hg, ht⟩
      obtain ⟨_, _, hargs⟩ := hmemT t htmem
      rw [hargs] at hx
      exact ((mem_argIdxs input t.1 x).mp hx).1
    -- the blocks reference at least one index, so max_idx inference succeeds
    have hnonempty : ((splitRuns (fun t => t.2.1) (sortedTriples input)).map
        (fun g => g.map (fun t => t.2.2))).flatMap List.flatten ≠ [] := by
      have hu0 : input.getD 0 0 ∈ input := by
        cases input with
        | nil => exact absurd rfl hne
        | cons x xs => exact List.mem_cons_self x xs
      have ht0 : (input.getD 0 0, input.count (input.getD 0 0),
          argIdxs input (input.getD 0 0)) ∈ sortedTriples input := by
        rw [sortedTriples, mem_sortStable]
        exact List.mem_map.mpr ⟨input.getD 0 0,
          by rw [uniqueVals, mem_sortStable, List.mem_dedup]; exact hu0, rfl⟩
      rw [← flatten_splitRuns (fun t => t.2.1) (sortedTriples input),
        List.mem_flatten] at ht0
      obtain ⟨g, hg, htg⟩ := ht0
      have hidx0 : (0 : ℕ) ∈ argIdxs input (input.getD 0 0) := by
        rw [mem_argIdxs]
        cases input with
        | nil => exact absurd rfl hne
        | cons x xs => exact ⟨Nat.succ_pos _, rfl⟩
      intro hemp
      have : (0 : ℕ) ∈ ((splitRuns (fun t => t.2.1) (sortedTriples input)).map
          (fun g => g.map (fun t => t.2.2))).flatMap List.flatten := by
        rw [List.flatMap_map, List.mem_flatMap]
        exact ⟨g, hg, List.mem_flatten.mpr
          ⟨argIdxs input (input.getD 0 0),
           List.mem_map.mpr ⟨_, htg, rfl⟩, hidx0⟩⟩
      rw [hemp] at this
      exact absurd this (List.not_mem_nil _)
    obtain ⟨mi, hmi⟩ : ∃ mi, inferMaxIdx ((splitRuns (fun t => t.2.1)
        (sortedTriples input)).map (fun g => g.map (fun t => t.2.2))) = some mi := by
      unfold inferMaxIdx
      cases hmax : (((splitRuns (fun t => t.2.1) (sortedTriples input)).map
          (fun g => g.map (fun t => t.2.2))).flatMap List.flatten).max? with
      | none => exact absurd (List.max?_eq_none_iff.mp hmax) hnonempty
      | some m => exact ⟨m, rfl⟩
    have hmilt : mi < input.length :=
      hidx mi (List.max?_mem max_choice hmi)
    refine ⟨(sortedTriples input).map (fun t => t.1),
      (sortedTriples input).map (fun t => t.2.1),
      .sparse ((splitRuns (fun t => t.2.1) (sortedTriples input)).map
        (fun g => g.map (fun t => t.2.2))) mean mi,
      (sortedTriples input).map
        (fun t => [if mean then t.1 else (t.2.1 : ℚ) * t.1]), ?_, ?_, ?_, ?_, ?_⟩
    · simp only [sum_from_unique, mkSparse]
      rw [hmi]
      rfl
    · simp only [Reduce.applyM]
      rw [if_pos (by
        rw [show (colVec input).length = input.length from List.length_map _ _]
        omega)]
      congr 1
      rw [List.flatMap_map]
      have hstep : ∀ g ∈ splitRuns (fun t => t.2.1) (sortedTriples input),
          (g.map (fun t => t.2.2)).map (sparseRow mean (colVec input))
            = g.map (fun t => [if mean then t.1 else (t.2.1 : ℚ) * t.1]) := by
        intro g hg
        rw [List.map_map]
        apply List.map_congr_left
        intro t ht
        have htmem : t ∈ sortedTriples input := by
          rw [← flatten_splitRuns (fun t => t.2.1) (sortedTriples input),
            List.mem_flatten]
          exact ⟨g, hg, ht⟩
        obtain ⟨hu, hc, hargs⟩ := hmemT t htmem
        show sparseRow mean (colVec input) t.2.2
          = [if mean then t.1 else (t.2.1 : ℚ) * t.1]
        rw [hargs, hc, sparseRow_argIdxs input t.1 hu mean]
      calc (splitRuns (fun t => t.2.1) (sortedTriples input)).flatMap
            (fun g => (g.map (fun t => t.2.2)).map (sparseRow mean (colVec input)))
          = (splitRuns (fun t => t.2.1) (sortedTriples input)).flatMap
            (fun g => g.map (fun t => [if mean then t.1 else (t.2.1 : ℚ) * t.1])) := by
            rw [List.flatMap_def, List.flatMap_def, List.map_congr_left hstep]
        _ = ((splitRuns (fun t => t.2.1) (sortedTriples input)).flatten).map
            (fun t => [if mean then t.1 else (t.2.1 : ℚ) * t.1]) := by
            rw [List.flatMap_def, ← List.map_flatten]
        _ = (sortedTriples input).map
            (fun t => [if mean then t.1 else (t.2.1 : ℚ) * t.1]) := by
            rw [flatten_splitRuns]
    · rw [List.zipWith_map_left, List.zipWith_map_right, List.zipWith_same]
    · rw [List.length_map, List.length_map]
    · intro u hu
      obtain ⟨t, ht, rfl⟩ := List.mem_map.mp hu
      exact (hmemT t ht).1
  · -- concrete round-trip value
    norm_num [Reduce.applyM, sparseRow, entry, colsOf, colVec, List.range_succ,
      List.range_zero, List.getD]

/-- Witness for C6 at the claim's concrete input `[1,2,3,1,2,3,1,2,3]` with averaging. -/
theorem c6_witness :
    (∃ un cts sr out,
      sum_from_unique [1, 2, 3, 1, 2, 3, 1, 2, 3] true = some (un, cts, sr)
      ∧ Reduce.applyM sr (colVec [1, 2, 3, 1, 2, 3, 1, 2, 3]) = some out
      ∧ out = List.zipWith (fun u (c : ℕ) => [if true then u else (c : ℚ) * u]) un cts
      ∧ un.length = cts.length
      ∧ ∀ u ∈ un, u ∈ [1, 2, 3, 1, 2, 3, 1, 2, 3])
    ∧ sum_from_unique [1, 2, 3, 1, 2, 3, 1, 2, 3] true
        = some ([1, 2, 3], [3, 3, 3], .sparse [[[0, 3, 6], [1, 4, 7], [2, 5, 8]]] true 8)
    ∧ Reduce.applyM (.sparse [[[0, 3, 6], [1, 4, 7], [2, 5, 8]]] true 8)
        (colVec [1, 2, 3, 1, 2, 3, 1, 2, 3]) = some [[1], [2], [3]] :=
  c6_sum_from_unique [1, 2, 3, 1, 2, 3, 1, 2, 3] true (by simp)

end GPJax
